import Mathlib

/-!
Verification development for the MemTable server core (Go).

Shallow embedding of:
- the readline `Line` editor state (`src/utils/readline/terminal.go`),
- the server event loop and connection handler (`server.go`, `Server.eventLoop`
  and `Server.handleRead`),
- the bounded hand-off channel (`make(chan *Client, 1000)` in `NewServer`),
- the time-event scheduler and client registry (their implementation files are
  not part of the extracted sources; those operations are modelled from the
  specification, each marked `Modelled from the spec:`).

Bytes are modelled as `Nat`, Go slices as `List`, Go channels as explicit
FIFO queues, and the two goroutine bodies as pure functions from an input
schedule to a final state plus a trace of observable actions.
-/

/-- A parsed command frame: an ordered sequence of binary-safe arguments
(Go `[][]byte`, produced by `ArrayData.ToCommand`). -/
abbrev Command := List (List Nat)

/-- Session status constants (`CONNECTED`, `ERROR`, `EXIT`).  `CONNECTED` is
the ordinary/active status a session holds while serving traffic. -/
inductive Status where
  | CONNECTED
  | ERROR
  | EXIT
deriving DecidableEq, Repr

/-- Per-connection session state (Go `Client`): identity, status, pending
command (`cmd`, `none` when empty), bound database index, and the
last-activity timestamp.  The reply and exit channels are modelled by the
handler/event-loop traces rather than stored in the structure. -/
structure Client where
  id : Nat
  status : Status
  cmd : Option Command
  dbIdx : Nat
  lastActive : Nat
deriving DecidableEq, Repr

/-- Reply value returned by the command-dispatch collaborator (Go
`resp.RedisData`).  The collaborator is abstract; the model only records
which handler produced the reply and from what inputs. -/
inductive RedisData where
  | getRes (dbIdx : Nat) (args : Command)
  | setRes (dbIdx : Nat) (args : Command)
deriving DecidableEq, Repr

/-- Collaborator `cmd.Get`: read-style handler. -/
def cmdGet (dbIdx : Nat) (args : Command) : RedisData := .getRes dbIdx args

/-- Collaborator `cmd.Set`: write-style handler. -/
def cmdSet (dbIdx : Nat) (args : Command) : RedisData := .setRes dbIdx args

/-- Flatten a command's arguments to a byte list (length-prefixed), used by
the abstract wire encoding. -/
def flattenArgs (args : Command) : List Nat :=
  args.foldr (fun a r => a.length :: a ++ r) []

/-- Abstract wire encoding of a reply (Go `RedisData.ToBytes`). -/
def RedisData.toBytes : RedisData → List Nat
  | .getRes dbIdx args => 0 :: dbIdx :: flattenArgs args
  | .setRes dbIdx args => 1 :: dbIdx :: flattenArgs args

/-- Command routing performed inside `Server.eventLoop`: a frame with exactly
two arguments goes to `cmd.Get`, every other arity goes to `cmd.Set`
(source: `if len(cli.cmd) == 2 { res = cmd.Get(...) } else { res = cmd.Set(...) }`). -/
def dispatchCommand (dbIdx : Nat) (args : Command) : RedisData :=
  if args.length = 2 then cmdGet dbIdx args else cmdSet dbIdx args

/-! ## Readline `Line` (src/utils/readline/terminal.go) -/

/-- Editor line state (Go `Line`): insertion cursor and byte content.
`insertPos` is a Go `int` that the operations keep within `[0, len(content)]`;
it is represented as `Nat`, faithful because `delete` only decrements under
an `insertPos ≠ 0` guard and `moveCursor` clamps at 0 explicitly. -/
structure Line where
  insertPos : Nat
  content : List Nat
deriving DecidableEq, Repr

/-- Go `Line.write`: insert byte `c` at `insertPos` and advance the cursor.
The fast path appends when the cursor sits at the end; the general path
shifts the suffix right by one (`append`/`copy`/assignment in the source). -/
def Line.write (l : Line) (c : Nat) : Line :=
  if l.insertPos = l.content.length then
    { insertPos := l.insertPos + 1, content := l.content ++ [c] }
  else
    { insertPos := l.insertPos + 1,
      content := l.content.take l.insertPos ++ c :: l.content.drop l.insertPos }

/-- Go `Line.delete`: no-op at position 0, otherwise remove the byte before
the cursor (`append(l.content[:l.insertPos-1], l.content[l.insertPos:]...)`)
and move the cursor back by one. -/
def Line.delete (l : Line) : Line :=
  if l.insertPos = 0 then l
  else
    { insertPos := l.insertPos - 1,
      content := l.content.take (l.insertPos - 1) ++ l.content.drop l.insertPos }

/-- Go `Line.moveCursor`: add the (possibly negative) offset to the cursor
and clamp the result into `[0, len(content)]`. -/
def Line.moveCursor (l : Line) (offset : Int) : Line :=
  let p : Int := (l.insertPos : Int) + offset
  if p < 0 then { l with insertPos := 0 }
  else if p > (l.content.length : Int) then { l with insertPos := l.content.length }
  else { l with insertPos := p.toNat }

/-- The cursor invariant `0 ≤ insertPos ≤ len(content)`; the lower bound is
carried by the `Nat` representation, the upper bound is explicit. -/
def LineInv (l : Line) : Prop := l.insertPos ≤ l.content.length

/-- C10: for every `Line`, the invariant `0 ≤ insertPos ≤ len(content)` is
preserved by `write`, `delete` and `moveCursor`; `write` inserts at
`insertPos` and advances it by one; `delete` is a no-op at position 0 and
otherwise removes the byte before `insertPos` and decrements it; and
`moveCursor` clamps the resulting position into `[0, len(content)]`. -/
theorem line_ops_preserve_invariant (l : Line) (c : Nat) (offset : Int)
    (hinv : LineInv l) :
    (LineInv (l.write c) ∧ (l.write c).insertPos = l.insertPos + 1 ∧
      (l.write c).content
        = l.content.take l.insertPos ++ c :: l.content.drop l.insertPos) ∧
    (LineInv l.delete ∧
      (l.insertPos = 0 → l.delete = l) ∧
      (l.insertPos ≠ 0 → l.delete.insertPos = l.insertPos - 1 ∧
        l.delete.content
          = l.content.take (l.insertPos - 1) ++ l.content.drop l.insertPos)) ∧
    (LineInv (l.moveCursor offset) ∧
      (l.moveCursor offset).content = l.content ∧
      ((l.moveCursor offset).insertPos : Int)
        = max 0 (min ((l.insertPos : Int) + offset) (l.content.length : Int))) := by
  unfold LineInv at hinv
  refine ⟨⟨?_, ?_, ?_⟩, ⟨?_, ?_, ?_⟩, ?_, ?_, ?_⟩
  · unfold Line.write LineInv
    split
    · simp only [List.length_append, List.length_cons, List.length_nil]
      omega
    · simp only [List.length_append, List.length_take, List.length_cons,
        List.length_drop]
      omega
  · unfold Line.write
    split <;> simp
  · unfold Line.write
    split
    · rename_i h
      simp [h, List.take_of_length_le (le_of_eq h.symm)]
    · rfl
  · unfold Line.delete LineInv
    split
    · exact hinv
    · simp only [List.length_append, List.length_take, List.length_drop]
      omega
  · intro h0
    unfold Line.delete
    simp [h0]
  · intro h0
    unfold Line.delete
    simp [h0]
  · unfold Line.moveCursor LineInv
    simp only []
    split
    · simp
    · split
      · simp
      · rename_i h1 h2
        simp only []
        omega
  · unfold Line.moveCursor
    simp only []
    split
    · rfl
    · split <;> rfl
  · unfold Line.moveCursor
    simp only []
    split
    · rename_i h1
      dsimp only
      omega
    · split
      · rename_i h1 h2
        dsimp only
        omega
      · rename_i h1 h2
        dsimp only
        omega

/-- Witness for C10 at the concrete line ⟨1, [10, 20]⟩ with byte 5 and
offset −3. -/
theorem line_ops_preserve_invariant_witness :
    LineInv ⟨1, [10, 20]⟩ ∧
    ((Line.write ⟨1, [10, 20]⟩ 5).content = [10, 5, 20] ∧
      (Line.delete ⟨1, [10, 20]⟩).content = [20] ∧
      (Line.moveCursor ⟨1, [10, 20]⟩ (-3)).insertPos = 0) := by
  have h := line_ops_preserve_invariant ⟨1, [10, 20]⟩ 5 (-3)
    (by unfold LineInv; decide)
  refine ⟨by unfold LineInv; decide, ?_, ?_, ?_⟩
  · rw [h.1.2.2]; decide
  · rw [(h.2.1.2.2 (by decide)).2]; decide
  · have h3 := h.2.2.2.2
    norm_num at h3
    omega

/-! ## Client registry (spec-modelled operations) and time events -/

/-- Registry membership test by session id. -/
def clientListHas (reg : List Client) (i : Nat) : Bool :=
  reg.any (fun c => c.id = i)

/-- Modelled from the spec: `ClientList.AddClientIfNotExist` — idempotent
registration keyed by session id; returns the updated registry and whether
the session was unseen (the Go method's boolean result).  The method's
implementation file is not among the extracted sources. -/
def AddClientIfNotExist (reg : List Client) (cli : Client) :
    List Client × Bool :=
  if clientListHas reg cli.id then (reg, false) else (reg ++ [cli], true)

/-- Modelled from the spec: `ClientList.RemoveClient` — removal of a session
from the registry by id.  The method's implementation file is not among the
extracted sources. -/
def RemoveClient (reg : List Client) (cli : Client) : List Client :=
  reg.filter (fun c => c.id ≠ cli.id)

/-- Modelled from the spec: `ClientList.RemoveLongNotUsed n d` — the
idle-session sweep: every session idle for at least the threshold `d`
(seconds) at time `now` is removed.  The first Go argument is kept as a
parameter but plays no role the spec describes.  The method's
implementation file is not among the extracted sources. -/
def RemoveLongNotUsed (_n : Nat) (threshold : Nat) (now : Nat)
    (reg : List Client) : List Client :=
  reg.filter (fun c => now < c.lastActive + threshold)

/-- Scheduled callback: a time event's action on the client registry, given
the current time (Go closures run against live server state). -/
abbrev TimeCallback := Nat → List Client → List Client

/-- A scheduled time event (Go `TimeEvent`): callback, next fire time (unix
seconds), re-fire interval (seconds) and periodicity. -/
structure TimeEvent where
  callback : TimeCallback
  nextFire : Nat
  interval : Nat
  periodic : Bool

/-- Modelled from the spec: `NewPeriodTimeEvent f at interval` builds a
periodic event first firing at `at`.  Its implementation file is not among
the extracted sources. -/
def NewPeriodTimeEvent (f : TimeCallback) (fireAt : Nat) (interval : Nat) :
    TimeEvent :=
  { callback := f, nextFire := fireAt, interval := interval, periodic := true }

/-- Modelled from the spec: `TimeEventList.AddTimeEvent` registers an event
in the scheduler's list.  Its implementation file is not among the
extracted sources. -/
def AddTimeEvent (tl : List TimeEvent) (e : TimeEvent) : List TimeEvent :=
  tl ++ [e]

/-- Modelled from the spec: `TimeEventList.ExecuteOneIfExpire` — on a tick
at time `now`, execute AT MOST ONE due event (spec §4.2: "execute one if
expired"); a fired periodic event is re-armed to `now + interval`, a fired
one-shot event is dropped.  Returns the updated list and the callbacks that
were run during the call.  Its implementation file is not among the
extracted sources. -/
def ExecuteOneIfExpire (now : Nat) :
    List TimeEvent → List TimeEvent × List TimeCallback
  | [] => ([], [])
  | e :: rest =>
    if e.nextFire ≤ now then
      (if e.periodic then { e with nextFire := now + e.interval } :: rest
       else rest,
       [e.callback])
    else
      let r := ExecuteOneIfExpire now rest
      (e :: r.1, r.2)

/-! ## Event loop (src server.go, `Server.eventLoop`) -/

/-- Observable actions of one event-loop iteration. -/
inductive ELAction where
  | removed (id : Nat)
  | registered (id : Nat)
  | refreshed (id : Nat) (now : Nat)
  | executed (id : Nat) (args : Command)
  | replied (id : Nat) (bytes : List Nat)
deriving DecidableEq, Repr

/-- The reap callback registered at event-loop startup:
`s.clis.RemoveLongNotUsed(1, 300*time.Second)` run at the fire time. -/
def reapCallback : TimeCallback :=
  fun now reg => RemoveLongNotUsed 1 300 now reg

/-- Event-loop startup (head of `Server.eventLoop`): register one periodic
time event firing first at `now + 300` seconds with interval 300 seconds,
whose callback reaps idle clients. -/
def eventLoopStartup (now : Nat) (tl : List TimeEvent) : List TimeEvent :=
  AddTimeEvent tl (NewPeriodTimeEvent reapCallback (now + 300) 300)

/-- The ticker branch of the event-loop `select` (fires once per second):
run the scheduler's `ExecuteOneIfExpire`. -/
def eventLoopTick (now : Nat) (tl : List TimeEvent) :
    List TimeEvent × List TimeCallback :=
  ExecuteOneIfExpire now tl

/-- The hand-off branch of the event-loop `select`, translated statement by
statement from the source:
1. `if cli.cmd == nil { continue }` — nil-command notifications are skipped
   (note: this happens BEFORE the status check);
2. `if cli.status == ERROR || cli.status == EXIT { s.clis.RemoveClient(cli); continue }`;
3. `s.clis.AddClientIfNotExist(cli)`;
4. `cli.UpdateTimestamp()` — the registry holds the same pointer, so the
   registered entry's `lastActive` is refreshed (modelled by a map update);
5. arity-routed dispatch via `dispatchCommand`;
6. `cli.res <- string(res.ToBytes())` — reply delivery.
Returns the updated registry and the iteration's action trace. -/
def eventLoopStep (now : Nat) (reg : List Client) (cli : Client) :
    List Client × List ELAction :=
  match cli.cmd with
  | none => (reg, [])
  | some args =>
    if cli.status = Status.ERROR ∨ cli.status = Status.EXIT then
      (RemoveClient reg cli, [.removed cli.id])
    else
      let p := AddClientIfNotExist reg cli
      let reg2 := p.1.map
        (fun c => if c.id = cli.id then { c with lastActive := now } else c)
      let res := dispatchCommand cli.dbIdx args
      (reg2,
        (if p.2 then [ELAction.registered cli.id] else []) ++
        [.refreshed cli.id now, .executed cli.id args,
         .replied cli.id res.toBytes])

/-- Sequential run of the event loop over the arrival-ordered contents of
the hand-off queue: the single executor goroutine dequeues and processes
one notification at a time, so the traces concatenate in arrival order. -/
def eventLoopRun (now : Nat) (reg : List Client) :
    List Client → List Client × List ELAction
  | [] => (reg, [])
  | cli :: rest =>
    let p := eventLoopStep now reg cli
    let q := eventLoopRun now p.1 rest
    (q.1, p.2 ++ q.2)

/-- The commands actually executed in a trace, in order. -/
def executedOf (tr : List ELAction) : List (Nat × Command) :=
  tr.filterMap (fun a =>
    match a with
    | .executed i args => some (i, args)
    | _ => none)

/-- A notification is executable when it carries a command and its session
is in neither terminal status. -/
def executableCmd (cli : Client) : Option (Nat × Command) :=
  match cli.cmd with
  | none => none
  | some args =>
    if cli.status = Status.ERROR ∨ cli.status = Status.EXIT then none
    else some (cli.id, args)

/-! ## Connection handler (src server.go, `Server.handleRead`) -/

/-- One occurrence delivered to the handler's three-way `select`: a parsed
frame, a parse result that is not an array, a read error (`eof = true` when
the error is `"EOF"`, i.e. clean peer shutdown), a reply arriving on the
session's reply channel together with the socket-write outcome, or the exit
signal. -/
inductive ReadEvent where
  | frame (args : Command)
  | parseBad
  | readErr (eof : Bool)
  | reply (bytes : List Nat) (writeOk : Bool)
  | exitSig
deriving DecidableEq, Repr

/-- Observable actions of the connection handler: a send on the hand-off
queue (`s.commands <- client`, carrying the client state at send time), a
socket write attempt, and the `conn.Close()` call. -/
inductive HAction where
  | notified (c : Client)
  | wrote (bytes : List Nat)
  | closed
deriving DecidableEq, Repr

/-- The `for running { select { ... } }` loop of `Server.handleRead`,
translated case by case from the source.  The loop body never assigns
`client.status`.  A parsed frame is stored in `client.cmd` and the client is
forwarded on the hand-off queue; a non-array parse, a read error, a failed
socket write and the exit signal all end the loop.  The returned `Bool` is
the loop's `running` flag when the schedule is exhausted — `true` means the
Go loop would still be blocked waiting for events. -/
def handleLoop (cli : Client) : List ReadEvent → Client × List HAction × Bool
  | [] => (cli, [], true)
  | e :: rest =>
    match e with
    | .frame args =>
      let cli1 := { cli with cmd := some args }
      let r := handleLoop cli1 rest
      (r.1, .notified cli1 :: r.2.1, r.2.2)
    | .parseBad => (cli, [], false)
    | .readErr _ => (cli, [], false)
    | .reply bytes writeOk =>
      if writeOk then
        let r := handleLoop cli rest
        (r.1, .wrote bytes :: r.2.1, r.2.2)
      else (cli, [.wrote bytes], false)
    | .exitSig => (cli, [], false)

/-- All of `Server.handleRead` after client creation: run the loop, then
the post-loop block — `if client.status != EXIT { status = ERROR; cmd = nil;
s.commands <- client }` followed by the unconditional `conn.Close()`. -/
def handleReadRun (cli : Client) (events : List ReadEvent) :
    Client × List HAction :=
  let r := handleLoop cli events
  if r.1.status ≠ Status.EXIT then
    let c2 := { r.1 with status := Status.ERROR, cmd := none }
    (c2, r.2.1 ++ [.notified c2, .closed])
  else (r.1, r.2.1 ++ [.closed])

/-! ## Bounded hand-off channel (Go `make(chan *Client, 1000)`) -/

/-- A Go buffered channel modelled as a bounded FIFO queue: fixed capacity
and the buffered items, oldest first. -/
structure BoundedChan (α : Type) where
  cap : Nat
  buf : List α
deriving Repr

/-- Go channel send: when the buffer is below capacity the value joins the
back of the buffer; when the buffer is full the send does not complete —
`none` models the sender blocking with its value retained, never the value
being dropped. -/
def BoundedChan.send (q : BoundedChan α) (a : α) : Option (BoundedChan α) :=
  if q.buf.length < q.cap then some { q with buf := q.buf ++ [a] }
  else none

/-- Go channel receive: take the oldest buffered value, `none` when empty. -/
def BoundedChan.recv (q : BoundedChan α) : Option (α × BoundedChan α) :=
  match q.buf with
  | [] => none
  | x :: xs => some (x, { q with buf := xs })

/-- Send a list of values in order, all of which must complete. -/
def BoundedChan.sendAll (q : BoundedChan α) :
    List α → Option (BoundedChan α)
  | [] => some q
  | a :: rest =>
    match q.send a with
    | none => none
    | some q2 => q2.sendAll rest

/-- Receive repeatedly (fuelled by the buffer length) until the channel is
empty, collecting the values in delivery order. -/
def drainFuel : Nat → BoundedChan α → List α
  | 0, _ => []
  | fuel + 1, q =>
    match q.recv with
    | none => []
    | some (x, q2) => x :: drainFuel fuel q2

/-- All values a consumer dequeues from the channel, in delivery order. -/
def BoundedChan.drain (q : BoundedChan α) : List α :=
  drainFuel q.buf.length q

/-- The server state built by `NewServer` (fields the claims touch): two
databases and the hand-off channel `make(chan *Client, 1000)`. -/
structure ServerState where
  dbNum : Nat
  url : String
  commands : BoundedChan Client

/-- Go `NewServer`: `n := 2` databases and a hand-off channel of capacity
1000. -/
def NewServer (url : String) : ServerState :=
  { dbNum := 2, url := url, commands := { cap := 1000, buf := [] } }

/-! ## Helper lemmas -/

/-- A list extended with two elements has the second as its last. -/
theorem getLast_append_pair (l : List HAction) (a b : HAction) :
    (l ++ [a, b]).getLast? = some b := by
  induction l with
  | nil => rfl
  | cons x xs ih =>
    rw [List.cons_append, List.getLast?_cons, ih]
    cases xs <;> rfl

/-- The handler loop never assigns the session status (in the source the
loop body writes only `client.cmd`; `status` is written solely after the
loop). -/
theorem handleLoop_preserves_status (events : List ReadEvent) (cli : Client) :
    (handleLoop cli events).1.status = cli.status := by
  induction events generalizing cli with
  | nil => rfl
  | cons e rest ih =>
    cases e with
    | frame args => simpa [handleLoop] using ih { cli with cmd := some args }
    | parseBad => rfl
    | readErr eof => rfl
    | reply bytes writeOk =>
      cases writeOk with
      | true => simpa [handleLoop] using ih cli
      | false => rfl
    | exitSig => rfl

/-- While the loop is still running after `events`, feeding further events
continues from the reached state and concatenates traces. -/
theorem handleLoop_append (events more : List ReadEvent) (cli : Client)
    (h : (handleLoop cli events).2.2 = true) :
    handleLoop cli (events ++ more)
      = ((handleLoop (handleLoop cli events).1 more).1,
         (handleLoop cli events).2.1
           ++ (handleLoop (handleLoop cli events).1 more).2.1,
         (handleLoop (handleLoop cli events).1 more).2.2) := by
  induction events generalizing cli with
  | nil => simp [handleLoop]
  | cons e rest ih =>
    cases e with
    | frame args =>
      have h2 : (handleLoop { cli with cmd := some args } rest).2.2 = true := by
        simpa [handleLoop] using h
      simp [handleLoop, ih _ h2]
    | parseBad => simp [handleLoop] at h
    | readErr eof => simp [handleLoop] at h
    | reply bytes writeOk =>
      cases writeOk with
      | true =>
        have h2 : (handleLoop cli rest).2.2 = true := by
          simpa [handleLoop] using h
        simp [handleLoop, ih _ h2]
      | false => simp [handleLoop] at h
    | exitSig => simp [handleLoop] at h

/-- Refreshing the timestamp of the client with id `i` does not change
which ids are registered. -/
theorem clientListHas_map_refresh (reg : List Client) (i now : Nat) :
    clientListHas
      (reg.map (fun c => if c.id = i then { c with lastActive := now } else c))
      i = clientListHas reg i := by
  unfold clientListHas
  rw [List.any_map]
  congr 1
  funext c
  by_cases h : c.id = i <;> simp [h]

/-- The executed-command content of one event-loop iteration's trace. -/
theorem executedOf_step (now : Nat) (reg : List Client) (cli : Client) :
    executedOf (eventLoopStep now reg cli).2
      = (executableCmd cli).elim [] (fun pr => [pr]) := by
  unfold eventLoopStep executableCmd
  cases cli.cmd with
  | none => rfl
  | some args =>
    by_cases hst : cli.status = Status.ERROR ∨ cli.status = Status.EXIT
    · simp [hst, executedOf]
    · simp only [hst, if_false]
      by_cases hnew : (AddClientIfNotExist reg cli).2
      · simp [hnew, executedOf]
      · simp [hnew, executedOf]

/-! ## Claim theorems -/

/-- C1 (evaluation at the failing input): a status-only notification
(`cmd = nil`, `status = ERROR`) from a session present in the registry is
dropped by the event loop.  The source checks `if cli.cmd == nil
{ continue }` BEFORE the `ERROR`/`EXIT` check, so the branch that calls
`RemoveClient` is never reached for a command-less notification: the
registry still contains the session and no action is performed — contrary
to the claim (and to the handler's own intent of notifying the event loop
so it can release the client). -/
theorem eventloop_skips_nil_cmd_notification :
    eventLoopStep 5 [⟨7, Status.ERROR, none, 0, 0⟩]
        ⟨7, Status.ERROR, none, 0, 0⟩
      = ([⟨7, Status.ERROR, none, 0, 0⟩], [])
    ∧ clientListHas
        (eventLoopStep 5 [⟨7, Status.ERROR, none, 0, 0⟩]
          ⟨7, Status.ERROR, none, 0, 0⟩).1 7 = true := by
  constructor
  · rfl
  · rfl

/-- C2 (counterexample): a clean peer shutdown (EOF from the frame source)
does NOT leave the session in status `EXIT`.  Running the handler on the
single event "read error EOF" from an active session: the loop exits
without touching `status`, and the post-loop block then sets `ERROR`. -/
theorem eof_terminal_status_is_error_not_exit :
    (handleReadRun ⟨0, Status.CONNECTED, none, 0, 0⟩
        [ReadEvent.readErr true]).1.status = Status.ERROR ∧
    ¬ (handleReadRun ⟨0, Status.CONNECTED, none, 0, 0⟩
        [ReadEvent.readErr true]).1.status = Status.EXIT := by
  constructor
  · rfl
  · decide

/-- C2 as amended: whenever the frame source yields EOF or a non-EOF
decode/read error (after any prefix of events the loop survived), the loop
exits without changing the status; for a session whose status is not
already `EXIT`, the post-loop block then makes the terminal status `ERROR`
— for clean EOF and for decode errors alike — the pending command is
cleared, and in both cases the connection is closed. -/
theorem read_error_terminal_status (cli : Client) (events : List ReadEvent)
    (eof : Bool)
    (hrun : (handleLoop cli events).2.2 = true)
    (hst : cli.status ≠ Status.EXIT) :
    (handleReadRun cli (events ++ [ReadEvent.readErr eof])).1.status
        = Status.ERROR ∧
    (handleReadRun cli (events ++ [ReadEvent.readErr eof])).1.cmd = none ∧
    (handleReadRun cli (events ++ [ReadEvent.readErr eof])).2.getLast?
        = some HAction.closed := by
  have hsplit := handleLoop_append events [ReadEvent.readErr eof] cli hrun
  have hmid : handleLoop (handleLoop cli events).1 [ReadEvent.readErr eof]
      = ((handleLoop cli events).1, [], false) := rfl
  have hstat : (handleLoop cli (events ++ [ReadEvent.readErr eof])).1.status
      = cli.status := handleLoop_preserves_status _ cli
  unfold handleReadRun
  rw [hsplit, hmid]
  simp only [List.append_nil]
  rw [if_pos]
  · refine ⟨rfl, rfl, ?_⟩
    exact getLast_append_pair _ _ _
  · intro hcontra
    exact hst (by
      have := handleLoop_preserves_status events cli
      rw [this] at hcontra
      exact hcontra)

/-- Witness for the amended C2: a session that sent one frame and then hit
EOF ends with terminal status `ERROR` and a closed connection. -/
theorem read_error_terminal_status_witness :
    (handleLoop ⟨0, Status.CONNECTED, none, 0, 0⟩
        [ReadEvent.frame [[1]]]).2.2 = true ∧
    (handleReadRun ⟨0, Status.CONNECTED, none, 0, 0⟩
        ([ReadEvent.frame [[1]]] ++ [ReadEvent.readErr true])).1.status
        = Status.ERROR := by
  refine ⟨by decide, ?_⟩
  exact (read_error_terminal_status ⟨0, Status.CONNECTED, none, 0, 0⟩
    [ReadEvent.frame [[1]]] true (by decide) (by decide)).1

/-- C3: after the handler loop exits, if the session status is not `EXIT`
the handler sets it to `ERROR`, clears the pending command, and appends to
the loop's trace exactly one status-only notification followed by the
socket close; if the status is `EXIT` it appends the socket close alone —
so the socket is closed in every case. -/
theorem handler_post_loop (cli : Client) (events : List ReadEvent)
    (_hexit : (handleLoop cli events).2.2 = false) :
    ((handleLoop cli events).1.status ≠ Status.EXIT →
      handleReadRun cli events
        = ({ (handleLoop cli events).1 with
              status := Status.ERROR, cmd := none },
           (handleLoop cli events).2.1
             ++ [HAction.notified
                   { (handleLoop cli events).1 with
                       status := Status.ERROR, cmd := none },
                 HAction.closed])) ∧
    ((handleLoop cli events).1.status = Status.EXIT →
      handleReadRun cli events
        = ((handleLoop cli events).1,
           (handleLoop cli events).2.1 ++ [HAction.closed])) := by
  constructor
  · intro hne
    unfold handleReadRun
    rw [if_pos hne]
  · intro heq
    unfold handleReadRun
    rw [if_neg (by simp [heq])]

/-- Witness for C3: the handler run that ends through a decode error sends
the status-only notification and closes; evaluated at a concrete session. -/
theorem handler_post_loop_witness :
    (handleLoop ⟨3, Status.CONNECTED, none, 1, 0⟩
        [ReadEvent.parseBad]).2.2 = false ∧
    handleReadRun ⟨3, Status.CONNECTED, none, 1, 0⟩ [ReadEvent.parseBad]
      = (⟨3, Status.ERROR, none, 1, 0⟩,
         [HAction.notified ⟨3, Status.ERROR, none, 1, 0⟩,
          HAction.closed]) := by
  refine ⟨by decide, ?_⟩
  have h := (handler_post_loop ⟨3, Status.CONNECTED, none, 1, 0⟩
    [ReadEvent.parseBad] (by decide)).1 (by decide)
  simpa using h

/-- C4: for a notification carrying a command from a session in neither
terminal status, the event loop performs, in this order: idempotent
registration when the session is unseen, a `lastActive` refresh to the
current time, execution of the command against the session's bound
database, and delivery of the encoded reply on the session's reply
channel; afterwards the session is registered with `lastActive = now`. -/
theorem eventloop_processes_command (now : Nat) (reg : List Client)
    (cli : Client) (args : Command)
    (hcmd : cli.cmd = some args)
    (herr : cli.status ≠ Status.ERROR)
    (hexit : cli.status ≠ Status.EXIT) :
    (eventLoopStep now reg cli).2
      = (if clientListHas reg cli.id then []
         else [ELAction.registered cli.id])
        ++ [ELAction.refreshed cli.id now,
            ELAction.executed cli.id args,
            ELAction.replied cli.id
              (dispatchCommand cli.dbIdx args).toBytes] ∧
    clientListHas (eventLoopStep now reg cli).1 cli.id = true ∧
    (∀ c ∈ (eventLoopStep now reg cli).1,
        c.id = cli.id → c.lastActive = now) := by
  have hst : ¬ (cli.status = Status.ERROR ∨ cli.status = Status.EXIT) := by
    intro h
    cases h with
    | inl h => exact herr h
    | inr h => exact hexit h
  unfold eventLoopStep
  rw [hcmd]
  simp only [hst, if_false]
  unfold AddClientIfNotExist
  by_cases hhas : clientListHas reg cli.id
  · simp only [hhas, if_pos, if_true]
    refine ⟨rfl, ?_, ?_⟩
    · rw [clientListHas_map_refresh]
      exact hhas
    · intro c hc hid
      rcases List.mem_map.1 hc with ⟨c0, hc0, hupd⟩
      by_cases h0 : c0.id = cli.id
      · rw [← hupd]
        simp [h0]
      · rw [← hupd] at hid
        simp [h0] at hid
  · simp only [hhas, if_false]
    refine ⟨rfl, ?_, ?_⟩
    · rw [clientListHas_map_refresh]
      simp [clientListHas]
    · intro c hc hid
      rcases List.mem_map.1 hc with ⟨c0, hc0, hupd⟩
      by_cases h0 : c0.id = cli.id
      · rw [← hupd]
        simp [h0]
      · rw [← hupd] at hid
        simp [h0] at hid

/-- Witness for C4: a fresh session with a two-argument command is
registered, refreshed, executed and replied to, in that order. -/
theorem eventloop_processes_command_witness :
    (eventLoopStep 9 [] ⟨4, Status.CONNECTED, some [[1], [2]], 0, 0⟩).2
      = [ELAction.registered 4, ELAction.refreshed 4 9,
         ELAction.executed 4 [[1], [2]],
         ELAction.replied 4
           (dispatchCommand 0 [[1], [2]]).toBytes] := by
  have h := (eventloop_processes_command 9 []
    ⟨4, Status.CONNECTED, some [[1], [2]], 0, 0⟩ [[1], [2]]
    rfl (by decide) (by decide)).1
  simpa [clientListHas] using h

/-- C5: command routing is solely by argument count — a frame of exactly
two arguments goes to the read-style handler `cmd.Get`, every other arity
goes to the write-style handler `cmd.Set` (`dispatchCommand` is the routing
the event loop applies to every executed command). -/
theorem dispatch_routes_on_arity (dbIdx : Nat) (args : Command) :
    (args.length = 2 → dispatchCommand dbIdx args = cmdGet dbIdx args) ∧
    (args.length ≠ 2 → dispatchCommand dbIdx args = cmdSet dbIdx args) := by
  constructor <;> intro h <;> simp [dispatchCommand, h]

/-- Witness for C5: a two-argument command routes to `Get`, a
three-argument command routes to `Set`. -/
theorem dispatch_routes_on_arity_witness :
    dispatchCommand 0 [[1], [2]] = cmdGet 0 [[1], [2]] ∧
    dispatchCommand 0 [[1], [2], [3]] = cmdSet 0 [[1], [2], [3]] :=
  ⟨(dispatch_routes_on_arity 0 [[1], [2]]).1 rfl,
   (dispatch_routes_on_arity 0 [[1], [2], [3]]).2 (by decide)⟩

/-- C6: on each ticker firing the event loop runs
`TimeEventList.ExecuteOneIfExpire`, which executes at most one due event,
even when several events are due at that tick. -/
theorem tick_executes_at_most_one_event (now : Nat) (tl : List TimeEvent) :
    (eventLoopTick now tl).2.length ≤ 1 := by
  unfold eventLoopTick
  induction tl with
  | nil => simp [ExecuteOneIfExpire]
  | cons e rest ih =>
    unfold ExecuteOneIfExpire
    by_cases h : e.nextFire ≤ now
    · simp [h]
    · simpa [h] using ih

/-- C7: event-loop startup registers exactly one periodic time event, with
first fire time 300 seconds from now, re-fire interval 300 seconds, and a
callback that removes every registered client idle for at least 300
seconds (keeps exactly the clients active within the last 300 seconds). -/
theorem startup_registers_reap_event (now : Nat) (tl : List TimeEvent) :
    eventLoopStartup now tl
      = tl ++ [{ callback := reapCallback, nextFire := now + 300,
                 interval := 300, periodic := true }] ∧
    (eventLoopStartup now tl).length = tl.length + 1 ∧
    (∀ t reg c, c ∈ reapCallback t reg ↔ (c ∈ reg ∧ t < c.lastActive + 300)) := by
  refine ⟨rfl, by simp [eventLoopStartup, AddTimeEvent, NewPeriodTimeEvent], ?_⟩
  intro t reg c
  simp [reapCallback, RemoveLongNotUsed, List.mem_filter]

/-- Draining with fuel at least the buffer length returns the whole buffer
in order. -/
theorem drainFuel_eq {α : Type} (fuel : Nat) (q : BoundedChan α)
    (h : q.buf.length ≤ fuel) : drainFuel fuel q = q.buf := by
  induction fuel generalizing q with
  | zero =>
    cases hb : q.buf with
    | nil => rfl
    | cons x xs => rw [hb] at h; simp at h
  | succ n ih =>
    unfold drainFuel BoundedChan.recv
    cases hb : q.buf with
    | nil => rfl
    | cons x xs =>
      simp only []
      rw [ih { q with buf := xs } (by rw [hb] at h; simpa using h)]

/-- A consumer dequeues exactly the buffered values, oldest first. -/
theorem drain_eq_buf {α : Type} (q : BoundedChan α) : q.drain = q.buf :=
  drainFuel_eq _ q (le_refl _)

/-- Sending a list into a channel holding `pre` succeeds while within
capacity, and appends the list to the buffer in order. -/
theorem sendAll_appends {α : Type} (capacity : Nat) (l : List α) :
    ∀ (pre : List α), pre.length + l.length ≤ capacity →
      BoundedChan.sendAll { cap := capacity, buf := pre } l
        = some { cap := capacity, buf := pre ++ l } := by
  induction l with
  | nil => intro pre _; simp [BoundedChan.sendAll]
  | cons a rest ih =>
    intro pre hlen
    have hsend : BoundedChan.send { cap := capacity, buf := pre } a
        = some { cap := capacity, buf := pre ++ [a] } := by
      unfold BoundedChan.send
      rw [if_pos (by simp at hlen ⊢; omega)]
    simp only [BoundedChan.sendAll, hsend]
    rw [ih (pre ++ [a]) (by simp at hlen ⊢; omega)]
    simp

/-- Sending a list into an empty channel within capacity succeeds and
buffers the list unchanged. -/
theorem sendAll_empty {α : Type} (capacity : Nat) (l : List α)
    (h : l.length ≤ capacity) :
    BoundedChan.sendAll { cap := capacity, buf := [] } l
      = some { cap := capacity, buf := l } := by
  simpa using sendAll_appends capacity l [] (by simpa using h)

/-- C8: the hand-off queue created by `NewServer` has fixed capacity 1000
and starts empty; a send into a full channel does not complete (the sender
blocks, modelled by `none` — the notification is retained by the sender,
never dropped); a completed send appends to the back of the buffer; any
list of notifications within capacity sent in order is buffered intact;
and the consumer dequeues buffered notifications in FIFO order. -/
theorem handoff_queue_bounded_fifo (url : String) :
    (NewServer url).commands.cap = 1000 ∧
    (NewServer url).commands.buf = [] ∧
    (∀ (q : BoundedChan Client) (a : Client),
        q.buf.length = q.cap → q.send a = none) ∧
    (∀ (q q2 : BoundedChan Client) (a : Client),
        q.send a = some q2 → q2.buf = q.buf ++ [a]) ∧
    (∀ (l : List Client), l.length ≤ 1000 →
        BoundedChan.sendAll (NewServer url).commands l
          = some { cap := 1000, buf := l } ∧
        BoundedChan.drain { cap := 1000, buf := l } = l) := by
  refine ⟨rfl, rfl, ?_, ?_, ?_⟩
  · intro q a hfull
    unfold BoundedChan.send
    rw [if_neg (by omega)]
  · intro q q2 a hsend
    unfold BoundedChan.send at hsend
    by_cases h : q.buf.length < q.cap
    · rw [if_pos h] at hsend
      cases hsend
      rfl
    · rw [if_neg h] at hsend
      cases hsend
  · intro l hlen
    exact ⟨sendAll_empty 1000 l hlen, drain_eq_buf _⟩

/-- Witness for C8: a full channel of capacity 1 blocks a further send,
and two buffered notifications drain in send order. -/
theorem handoff_queue_bounded_fifo_witness :
    (NewServer "u").commands.cap = 1000 ∧
    BoundedChan.send
        { cap := 1, buf := [(⟨0, Status.CONNECTED, none, 0, 0⟩ : Client)] }
        ⟨1, Status.CONNECTED, none, 0, 0⟩ = none ∧
    BoundedChan.drain
        { cap := 1000,
          buf := [(⟨0, Status.CONNECTED, none, 0, 0⟩ : Client),
                  ⟨1, Status.CONNECTED, none, 0, 0⟩] }
      = [⟨0, Status.CONNECTED, none, 0, 0⟩,
         ⟨1, Status.CONNECTED, none, 0, 0⟩] := by
  refine ⟨(handoff_queue_bounded_fifo "u").1, ?_, ?_⟩
  · exact (handoff_queue_bounded_fifo "u").2.2.1 _ _ rfl
  · exact ((handoff_queue_bounded_fifo "u").2.2.2.2 _ (by decide)).2

/-- C9: the event loop is the sole executor: commands are executed one at a
time by a single sequential fold over the hand-off queue contents (so
executions never overlap), and across all sessions the executed commands
are exactly, and in the same order as, the executable notifications in
hand-off-queue arrival order — a total order over all accepted commands. -/
theorem serialized_execution_in_arrival_order (now : Nat) (reg : List Client)
    (arrivals : List Client) :
    executedOf (eventLoopRun now reg arrivals).2
      = arrivals.filterMap executableCmd := by
  induction arrivals generalizing reg with
  | nil => simp [eventLoopRun, executedOf]
  | cons cli rest ih =>
    simp only [eventLoopRun, List.filterMap_cons]
    have hsplit : executedOf ((eventLoopStep now reg cli).2
        ++ (eventLoopRun now (eventLoopStep now reg cli).1 rest).2)
      = executedOf (eventLoopStep now reg cli).2
        ++ executedOf (eventLoopRun now (eventLoopStep now reg cli).1 rest).2 := by
      unfold executedOf
      exact List.filterMap_append _ _ _
    rw [hsplit, executedOf_step, ih]
    cases executableCmd cli <;> simp
